import Mathlib

/-!
Shallow embedding of the `supl` C++ utility library
(cs-ehanc001/cs361-wrestling): tuple algorithms (`tuple_algo.hpp`),
the lazy sequence adapters (`iterators.hpp`), and the universal
stringifier `to_string` (`etc.hpp`).

A C++ `std::tuple` is embedded as a `List α`: every tuple algorithm in the
source is a purely positional shuffle (`std::get<I>` applied over
`std::index_sequence`s), uniform in the element types, so the positional
semantics is captured exactly.  `std::make_index_sequence<N>` becomes
`List.range N`; `std::get<I>(tup)` becomes `tup.getD I default` (the
source's `static_assert`s guarantee indices are in bounds; the theorems
carry those bounds as hypotheses).
-/

namespace supl

/-- `std::make_index_sequence<n>` : the index pack `0, 1, ..., n-1`. -/
def make_index_sequence (n : Nat) : List Nat := List.range n

/-- `std::get<i>(tup)` : positional access.  In-bounds by the source's
`static_assert`s; out-of-bounds falls back to `default`. -/
def tuple_get [Inhabited α] (tup : List α) (i : Nat) : α :=
  tup.getD i default

/-- `impl::tuple_push_back_impl` : `std::tuple {std::get<Inds>(tup)..., data}`. -/
def tuple_push_back_impl [Inhabited α] (tup : List α) (data : α)
    (inds : List Nat) : List α :=
  inds.map (fun i => tuple_get tup i) ++ [data]

/-- `tuple_push_back` : append `data`, indices `0..size-1`. -/
def tuple_push_back [Inhabited α] (tup : List α) (data : α) : List α :=
  tuple_push_back_impl tup data (make_index_sequence tup.length)

/-- `impl::tuple_pop_back_impl` : `std::tuple {std::get<Inds>(tup)...}`. -/
def tuple_pop_back_impl [Inhabited α] (tup : List α)
    (inds : List Nat) : List α :=
  inds.map (fun i => tuple_get tup i)

/-- `tuple_pop_back` : indices `0..size-2` (`make_index_sequence<size - 1>`). -/
def tuple_pop_back [Inhabited α] (tup : List α) : List α :=
  tuple_pop_back_impl tup (make_index_sequence (tup.length - 1))

/-- `impl::tuple_push_front_impl` : `std::tuple {data, std::get<Inds>(tup)...}`. -/
def tuple_push_front_impl [Inhabited α] (tup : List α) (data : α)
    (inds : List Nat) : List α :=
  data :: inds.map (fun i => tuple_get tup i)

/-- `tuple_push_front` : prepend `data`, indices `0..size-1`. -/
def tuple_push_front [Inhabited α] (tup : List α) (data : α) : List α :=
  tuple_push_front_impl tup data (make_index_sequence tup.length)

/-- `impl::tuple_pop_front_impl` : `std::tuple {std::get<Inds + 1>(tup)...}`. -/
def tuple_pop_front_impl [Inhabited α] (tup : List α)
    (inds : List Nat) : List α :=
  inds.map (fun i => tuple_get tup (i + 1))

/-- `tuple_pop_front` : indices shifted by one, `make_index_sequence<size - 1>`. -/
def tuple_pop_front [Inhabited α] (tup : List α) : List α :=
  tuple_pop_front_impl tup (make_index_sequence (tup.length - 1))

/-- `impl::tuple_split_impl` : pair of
`std::tuple {std::get<Pre_Idxs>(tup)...}` and
`std::tuple {std::get<Post_Idxs + Idx>(tup)...}`. -/
def tuple_split_impl [Inhabited α] (tup : List α)
    (pre_idxs post_idxs : List Nat) (idx : Nat) : List α × List α :=
  (pre_idxs.map (fun i => tuple_get tup i),
   post_idxs.map (fun i => tuple_get tup (i + idx)))

/-- `tuple_split` : `pre_seq = make_index_sequence<Idx>`,
`post_seq = make_index_sequence<size - Idx>`.  The source's
`static_assert(Idx < std::tuple_size_v<Tuple>)` becomes a hypothesis of the
theorems. -/
def tuple_split [Inhabited α] (tup : List α) (idx : Nat) :
    List α × List α :=
  tuple_split_impl tup (make_index_sequence idx)
    (make_index_sequence (tup.length - idx)) idx

/-- `impl::subtuple_impl` : `std::tuple {std::get<Inds + begin>(tup)...}`. -/
def subtuple_impl [Inhabited α] (tup : List α) (inds : List Nat)
    (b : Nat) : List α :=
  inds.map (fun i => tuple_get tup (i + b))

/-- `subtuple` : `seq = make_index_sequence<end - begin>`.  The source's
`static_assert`s (`begin` in bounds, `end <= size`) become hypotheses. -/
def subtuple [Inhabited α] (tup : List α) (b e : Nat) : List α :=
  subtuple_impl tup (make_index_sequence (e - b)) b

/-- `impl::tuple_any_of_impl` : the fold `(pred(std::get<Inds>(tup)) || ...)`;
an empty `||` pack folds to `false`. -/
def tuple_any_of_impl [Inhabited α] (tup : List α) (pred : α → Bool)
    (inds : List Nat) : Bool :=
  inds.any (fun i => pred (tuple_get tup i))

/-- `tuple_any_of`. -/
def tuple_any_of [Inhabited α] (tup : List α) (pred : α → Bool) : Bool :=
  tuple_any_of_impl tup pred (make_index_sequence tup.length)

/-- `tuple_none_of` : `not tuple_any_of(tup, pred)`. -/
def tuple_none_of [Inhabited α] (tup : List α) (pred : α → Bool) : Bool :=
  !(tuple_any_of tup pred)

/-- `impl::tuple_count_if_impl` : the fold
`(static_cast<std::size_t>(pred(std::get<Inds>(tup))) + ...)`.
A unary fold over `+` with an EMPTY pack is ill-formed C++
([expr.prim.fold]): instantiating it for an empty tuple does not compile.
That failure is embedded as `none`. -/
def tuple_count_if_impl [Inhabited α] (tup : List α) (pred : α → Bool) :
    List Nat → Option Nat
  | [] => none
  | inds =>
      some ((inds.map (fun i => (pred (tuple_get tup i)).toNat)).sum)

/-- `tuple_count_if`. -/
def tuple_count_if [Inhabited α] (tup : List α) (pred : α → Bool) :
    Option Nat :=
  tuple_count_if_impl tup pred (make_index_sequence tup.length)

/-! Helper lemmas: mapping positional access over an index range. -/

/-- In bounds, `tuple_get` is plain indexing. -/
theorem tuple_get_eq_getElem [Inhabited α] (l : List α) (i : Nat)
    (h : i < l.length) : tuple_get l i = l[i] := by
  rw [tuple_get, List.getD_eq_getElem l default h]

/-- Mapping `tuple_get (· + b)` over `range k` yields the slice
`(drop b).take k`, provided `b + k` is in bounds. -/
theorem map_range_tuple_get_add [Inhabited α] (l : List α) (b k : Nat)
    (h : b + k ≤ l.length) :
    (List.range k).map (fun i => tuple_get l (i + b)) =
      (l.drop b).take k := by
  induction k with
  | zero => simp
  | succ k ih =>
      rw [List.range_succ, List.map_append, ih (by omega)]
      have hbk : b + k < l.length := by omega
      have hk : k < (l.drop b).length := by
        rw [List.length_drop]; omega
      rw [List.take_succ]
      simp only [List.map_cons, List.map_nil]
      congr 1
      rw [List.getElem?_drop, List.getElem?_eq_getElem hbk,
        Option.toList_some, tuple_get_eq_getElem l (k + b) (by omega)]
      simp [Nat.add_comm]

/-- Special case `b = 0` : mapping `tuple_get` over `range k` is `take k`. -/
theorem map_range_tuple_get [Inhabited α] (l : List α) (k : Nat)
    (h : k ≤ l.length) :
    (List.range k).map (fun i => tuple_get l i) = l.take k := by
  have := map_range_tuple_get_add l 0 k (by omega)
  simpa using this

/-- Mapping `tuple_get` over the full index range reproduces the list. -/
theorem map_range_tuple_get_self [Inhabited α] (l : List α) :
    (List.range l.length).map (fun i => tuple_get l i) = l := by
  rw [map_range_tuple_get l l.length (le_refl _), List.take_length]

/-- Unfolding `tuple_count_if` on a nonempty tuple: the `+` fold is
well-formed and sums the casts of the predicate results. -/
theorem tuple_count_if_cons [Inhabited α] (x : α) (rest : List α)
    (pred : α → Bool) :
    tuple_count_if (x :: rest) pred =
      some (((make_index_sequence (x :: rest).length).map
        (fun i => (pred (tuple_get (x :: rest) i)).toNat)).sum) := by
  rw [tuple_count_if, make_index_sequence, List.length_cons,
    List.range_succ_eq_map]
  simp [tuple_count_if_impl]

/-- C1: for every tuple `S` and every splitting index `i` with
`0 <= i < length S` (the source's `static_assert`), `tuple_split S i`
returns the pair of tuples holding elements `[0, i)` and `[i, length S)`;
concatenating the two results reconstructs `S` in original order, and the
first element of the second result is `S[i]`. -/
theorem tuple_split_correct [Inhabited α] (S : List α) (i : Nat)
    (h : i < S.length) :
    (tuple_split S i).1 = S.take i ∧
    (tuple_split S i).2 = S.drop i ∧
    (tuple_split S i).1 ++ (tuple_split S i).2 = S ∧
    tuple_get (tuple_split S i).2 0 = tuple_get S i := by
  have h1 : (tuple_split S i).1 = S.take i := by
    rw [tuple_split, tuple_split_impl, make_index_sequence]
    exact map_range_tuple_get S i (by omega)
  have h2 : (tuple_split S i).2 = S.drop i := by
    simp only [tuple_split, tuple_split_impl, make_index_sequence]
    rw [map_range_tuple_get_add S i (S.length - i) (by omega)]
    rw [List.take_of_length_le (by rw [List.length_drop])]
  refine ⟨h1, h2, ?_, ?_⟩
  · rw [h1, h2, List.take_append_drop]
  · rw [h2]
    have hd : 0 < (S.drop i).length := by rw [List.length_drop]; omega
    rw [tuple_get_eq_getElem _ 0 hd, tuple_get_eq_getElem S i h]
    rw [List.getElem_drop]
    simp

/-- Witness for C1 at `S = [10, 20, 30]`, `i = 1`. -/
theorem tuple_split_correct_witness :
    1 < ([10, 20, 30] : List Nat).length ∧
    ((tuple_split ([10, 20, 30] : List Nat) 1).1 =
        List.take 1 [10, 20, 30] ∧
      (tuple_split ([10, 20, 30] : List Nat) 1).2 =
        List.drop 1 [10, 20, 30] ∧
      (tuple_split ([10, 20, 30] : List Nat) 1).1 ++
          (tuple_split ([10, 20, 30] : List Nat) 1).2 = [10, 20, 30] ∧
      tuple_get (tuple_split ([10, 20, 30] : List Nat) 1).2 0 =
        tuple_get ([10, 20, 30] : List Nat) 1) :=
  ⟨by decide, tuple_split_correct [10, 20, 30] 1 (by decide)⟩

/-- C2: push and pop are mutual inverses at their respective end:
`tuple_pop_back (tuple_push_back S v) = S` and
`tuple_pop_front (tuple_push_front S v) = S`, for every tuple `S` and
value `v`. -/
theorem tuple_push_pop_inverse [Inhabited α] (S : List α) (v : α) :
    tuple_pop_back (tuple_push_back S v) = S ∧
    tuple_pop_front (tuple_push_front S v) = S := by
  have hpb : tuple_push_back S v = S ++ [v] := by
    rw [tuple_push_back, tuple_push_back_impl, make_index_sequence,
      map_range_tuple_get_self]
  have hpf : tuple_push_front S v = v :: S := by
    rw [tuple_push_front, tuple_push_front_impl, make_index_sequence,
      map_range_tuple_get_self]
  constructor
  · rw [hpb, tuple_pop_back, tuple_pop_back_impl, make_index_sequence]
    have hl : (S ++ [v]).length - 1 = S.length := by simp
    rw [hl, map_range_tuple_get (S ++ [v]) S.length (by simp),
      List.take_left]
  · rw [hpf, tuple_pop_front, tuple_pop_front_impl, make_index_sequence]
    have hl : (v :: S).length - 1 = S.length := by simp
    rw [hl, map_range_tuple_get_add (v :: S) 1 S.length
      (by rw [List.length_cons]; omega)]
    simp

/-- Witness for C2 at `S = [1, 2]`, `v = 7`. -/
theorem tuple_push_pop_inverse_witness :
    tuple_pop_back (tuple_push_back ([1, 2] : List Nat) 7) = [1, 2] ∧
    tuple_pop_front (tuple_push_front ([1, 2] : List Nat) 7) = [1, 2] :=
  tuple_push_pop_inverse [1, 2] 7

/-- C3: for every tuple `S` and valid half-open range `[b, e)`
(`b` a valid index, `e <= length S`, `b <= e`, mirroring the source's
`static_assert`s), `subtuple S b e` has length `e - b` and its `k`-th
element is `S[b + k]` for every `k < e - b`. -/
theorem subtuple_correct [Inhabited α] (S : List α) (b e : Nat)
    (hb : b < S.length) (he : e ≤ S.length) (hbe : b ≤ e) :
    (subtuple S b e).length = e - b ∧
    ∀ k, k < e - b → tuple_get (subtuple S b e) k = tuple_get S (b + k) := by
  have hlen : (subtuple S b e).length = e - b := by
    rw [subtuple, subtuple_impl, make_index_sequence]
    simp
  refine ⟨hlen, fun k hk => ?_⟩
  rw [tuple_get_eq_getElem _ k (by rw [hlen]; omega)]
  simp only [subtuple, subtuple_impl, make_index_sequence,
    List.getElem_map, List.getElem_range]
  rw [Nat.add_comm k b]

/-- Witness for C3 at `S = [1, 2, 3, 4]`, `b = 1`, `e = 3`. -/
theorem subtuple_correct_witness :
    1 < ([1, 2, 3, 4] : List Nat).length ∧
    3 ≤ ([1, 2, 3, 4] : List Nat).length ∧ 1 ≤ 3 ∧
    ((subtuple ([1, 2, 3, 4] : List Nat) 1 3).length = 3 - 1 ∧
      ∀ k, k < 3 - 1 →
        tuple_get (subtuple ([1, 2, 3, 4] : List Nat) 1 3) k =
          tuple_get ([1, 2, 3, 4] : List Nat) (1 + k)) :=
  ⟨by decide, by decide, by decide,
    subtuple_correct [1, 2, 3, 4] 1 3 (by decide) (by decide) (by decide)⟩

/-- C4 as stated is FALSE on the code: `tuple_count_if` instantiated at an
empty tuple is ill-formed C++ (a unary fold over `+` with an empty pack),
embedded as `none`, so for the empty tuple `tuple_count_if` never yields
`size - count_if not-P`. -/
theorem tuple_count_if_empty_counterexample :
    tuple_count_if ([] : List Nat) (fun _ => true) = none ∧
    ¬ (∃ a b, tuple_count_if ([] : List Nat) (fun _ => true) = some a ∧
        tuple_count_if ([] : List Nat)
          (fun x => !((fun (_ : Nat) => true) x)) = some b ∧
        a = ([] : List Nat).length - b) := by
  have hnone : tuple_count_if ([] : List Nat) (fun _ => true) = none := by
    rfl
  refine ⟨hnone, ?_⟩
  rintro ⟨a, b, hab, -, -⟩
  rw [hnone] at hab
  exact Option.noConfusion hab

/-- C4 (amended): for every NONEMPTY tuple `S` and every predicate `P`,
`tuple_count_if S P` is defined and equals `size S` minus
`tuple_count_if S (not P)` (and the two counts sum to `size S`); and for
every tuple, of any length including empty,
`tuple_any_of S P = not (tuple_none_of S P)`. -/
theorem tuple_count_if_complement [Inhabited α] (S : List α)
    (P : α → Bool) (h : S ≠ []) :
    (∃ a b, tuple_count_if S P = some a ∧
      tuple_count_if S (fun x => !(P x)) = some b ∧
      a + b = S.length ∧ a = S.length - b) ∧
    (∀ (S2 : List α) (P2 : α → Bool),
      tuple_any_of S2 P2 = !(tuple_none_of S2 P2)) := by
  constructor
  · match S, h with
    | x :: rest, _ =>
      rw [tuple_count_if_cons x rest P,
        tuple_count_if_cons x rest (fun y => !(P y))]
      have hsum :
          ((make_index_sequence (x :: rest).length).map
            (fun i => (P (tuple_get (x :: rest) i)).toNat)).sum +
          ((make_index_sequence (x :: rest).length).map
            (fun i => (!(P (tuple_get (x :: rest) i))).toNat)).sum =
          (x :: rest).length := by
        rw [← List.sum_map_add]
        have hone :
            ((make_index_sequence (x :: rest).length).map
              (fun i => (P (tuple_get (x :: rest) i)).toNat +
                (!(P (tuple_get (x :: rest) i))).toNat)).sum =
            ((make_index_sequence (x :: rest).length).map
              (fun _ => 1)).sum := by
          apply congrArg
          apply List.map_congr_left
          intro i _
          cases hP : P (tuple_get (x :: rest) i) <;> simp [hP]
        rw [hone, make_index_sequence]
        simp [List.map_const]
      exact ⟨_, _, rfl, rfl, hsum, by omega⟩
  · intro S2 P2
    rw [tuple_none_of, Bool.not_not]

/-- Witness for C4 (amended) at `S = [1, 2, 3]`, `P = (· % 2 == 1)`. -/
theorem tuple_count_if_complement_witness :
    ([1, 2, 3] : List Nat) ≠ [] ∧
    ((∃ a b,
        tuple_count_if ([1, 2, 3] : List Nat) (fun x => x % 2 == 1) =
          some a ∧
        tuple_count_if ([1, 2, 3] : List Nat)
          (fun x => !((fun y => y % 2 == 1) x)) = some b ∧
        a + b = ([1, 2, 3] : List Nat).length ∧
        a = ([1, 2, 3] : List Nat).length - b) ∧
      (∀ (S2 : List Nat) (P2 : Nat → Bool),
        tuple_any_of S2 P2 = !(tuple_none_of S2 P2))) :=
  ⟨by decide,
    tuple_count_if_complement [1, 2, 3] (fun x => x % 2 == 1) (by decide)⟩

/-! ### Lazy sequence adapters (`iterators.hpp`)

`sequence_iterator<T>` stores a current value `m_val` and an increment
function `m_inc`; `operator++` applies `m_inc` to `m_val` in place and
`operator==` compares the stored values only.  `sequence<T>` stores
`m_begin`, `m_end`, `m_inc`; `begin()`/`end()` build iterators carrying
`m_begin` resp. `m_end`.  The in-place mutation is embedded as explicit
state passing. -/

/-- `supl::increment` : the default step, `++t`, at an integral type. -/
def increment (t : Int) : Int := t + 1

/-- `sequence_iterator<T>` : current value plus increment function. -/
structure sequence_iterator (α : Type) where
  m_val : α
  m_inc : α → α

/-- `sequence_iterator::operator++` : `m_inc(m_val)`, mutating in place. -/
def seq_iter_next (it : sequence_iterator α) : sequence_iterator α :=
  { it with m_val := it.m_inc it.m_val }

/-- `sequence_iterator::operator==` : compares the stored values only. -/
def seq_iter_eq [DecidableEq α] (a b : sequence_iterator α) : Bool :=
  a.m_val = b.m_val

/-- `sequence<T>` : begin value, end value, increment function. -/
structure sequence (α : Type) where
  m_begin : α
  m_end : α
  m_inc : α → α

/-- `sequence::begin` : iterator at `m_begin` using `m_inc`. -/
def seq_begin (s : sequence α) : sequence_iterator α :=
  ⟨s.m_begin, s.m_inc⟩

/-- `sequence::end` : iterator at `m_end` using `m_inc`. -/
def seq_end (s : sequence α) : sequence_iterator α :=
  ⟨s.m_end, s.m_inc⟩

/-- Front-to-back consumption of a sequence iterator against a stop
marker, exactly as a range-for does: while the current marker does not
compare equal to the stop marker, dereference, then pre-increment.  Fuel
bounds the number of steps; `none` means the fuel ran out before the
current value compared equal to the stop value. -/
def seq_collect [DecidableEq α] (stop : sequence_iterator α) :
    Nat → sequence_iterator α → Option (List α)
  | fuel, it =>
    if seq_iter_eq it stop then some []
    else
      match fuel with
      | 0 => none
      | f + 1 => (seq_collect stop f (seq_iter_next it)).map
          (fun l => it.m_val :: l)

/-- C5: `sequence(0, 5)` with the default successor increment, consumed
front-to-back (dereference, then pre-increment, until the current marker
compares equal to the end marker) yields exactly `0, 1, 2, 3, 4`; the end
value `5` is excluded. -/
theorem sequence_zero_five :
    seq_collect (seq_end (sequence.mk 0 5 increment)) 5
        (seq_begin (sequence.mk 0 5 increment)) =
      some [0, 1, 2, 3, 4] ∧
    (5 : Int) ∉ [(0 : Int), 1, 2, 3, 4] := by
  constructor
  · rfl
  · decide

/-- Iterating the step function: traversal visits
`b, step b, step (step b), ...`. -/
theorem seq_collect_isSome_iff [DecidableEq α]
    (step : α → α) (e : α) (fuel : Nat) :
    ∀ b : α,
      (seq_collect ⟨e, step⟩ fuel ⟨b, step⟩).isSome = true →
        ∃ n, n ≤ fuel ∧ step^[n] b = e := by
  induction fuel with
  | zero =>
      intro b hsome
      rw [seq_collect] at hsome
      by_cases hb : b = e
      · exact ⟨0, by omega, hb⟩
      · simp [seq_iter_eq, hb] at hsome
  | succ f ih =>
      intro b hsome
      rw [seq_collect] at hsome
      by_cases hb : b = e
      · exact ⟨0, by omega, hb⟩
      · simp [seq_iter_eq, hb, seq_iter_next] at hsome
        obtain ⟨n, hn, hit⟩ := ih (step b) hsome
        exact ⟨n + 1, by omega, by
          rw [Function.iterate_succ_apply, hit]⟩

/-- If iterating the step `n` times from `b` reaches `e`, then fuel `n`
suffices for the traversal to finish. -/
theorem seq_collect_isSome_of_iterate [DecidableEq α]
    (step : α → α) (e : α) :
    ∀ (n : Nat) (b : α), step^[n] b = e →
      (seq_collect ⟨e, step⟩ n ⟨b, step⟩).isSome = true := by
  intro n
  induction n with
  | zero =>
      intro b hit
      rw [Function.iterate_zero_apply] at hit
      rw [seq_collect]
      simp [seq_iter_eq, hit]
  | succ f ih =>
      intro b hit
      rw [seq_collect]
      by_cases hb : b = e
      · simp [seq_iter_eq, hb]
      · simp [seq_iter_eq, hb, seq_iter_next]
        exact ih (step b) (by rw [← Function.iterate_succ_apply, hit])

/-- With the default successor increment on `Int`, fuel `d` exactly
traverses `[b, b + d)`. -/
theorem seq_collect_increment_exact :
    ∀ (d : Nat) (b : Int),
      seq_collect ⟨b + (d : Int), increment⟩ d ⟨b, increment⟩ =
        some ((List.range d).map (fun k : Nat => b + (k : Int))) := by
  intro d
  induction d with
  | zero =>
      intro b
      rw [seq_collect]
      simp [seq_iter_eq]
  | succ d ih =>
      intro b
      rw [seq_collect]
      have hne : b ≠ b + (((d + 1 : Nat) : Nat) : Int) := by
        push_cast; omega
      simp only [seq_iter_eq]
      rw [if_neg (by simpa using hne)]
      have hstep : seq_iter_next (⟨b, increment⟩ : sequence_iterator Int) =
          ⟨b + 1, increment⟩ := rfl
      rw [hstep]
      have harg : b + (((d + 1 : Nat) : Nat) : Int) = (b + 1) + (d : Int) := by
        push_cast; ring
      rw [harg, ih (b + 1)]
      rw [Option.map_some']
      apply congrArg
      rw [List.range_succ_eq_map, List.map_cons, List.map_map]
      apply congrArg₂
      · simp
      · apply List.map_congr_left
        intro k _
        simp only [Function.comp]
        push_cast
        ring

/-- With the default successor increment on `Int`, any fuel short of `d`
runs out before reaching the end value. -/
theorem seq_collect_increment_short :
    ∀ (fuel d : Nat) (b : Int), fuel < d →
      seq_collect ⟨b + (d : Int), increment⟩ fuel ⟨b, increment⟩ =
        none := by
  intro fuel
  induction fuel with
  | zero =>
      intro d b hlt
      rw [seq_collect]
      have hne : b ≠ b + (d : Int) := by omega
      simp only [seq_iter_eq]
      rw [if_neg (by simpa using hne)]
  | succ f ih =>
      intro d b hlt
      rw [seq_collect]
      have hne : b ≠ b + (d : Int) := by omega
      simp only [seq_iter_eq]
      rw [if_neg (by simpa using hne)]
      have hstep : seq_iter_next (⟨b, increment⟩ : sequence_iterator Int) =
          ⟨b + 1, increment⟩ := rfl
      rw [hstep]
      have harg : b + (d : Int) = (b + 1) + ((d - 1 : Nat) : Int) := by
        omega
      rw [harg, ih (d - 1) (b + 1) (by omega)]
      rfl

/-- C10: traversal of the stepped sequence terminates if and only if
repeated application of the step function starting from the begin value
eventually produces a value that compares equal to the end value (if the
step skips over the end value without ever equalling it, iteration never
becomes exhausted); and with the default successor increment on an
integral type and `b <= e`, traversal terminates after exactly `e - b`
steps: fuel `e - b` completes the traversal and any smaller fuel does
not. -/
theorem sequence_traversal_termination {α : Type} [DecidableEq α]
    (step : α → α) (e b : α) (bi ei : Int) (h : bi ≤ ei) :
    ((∃ fuel, (seq_collect ⟨e, step⟩ fuel ⟨b, step⟩).isSome = true) ↔
      (∃ n, step^[n] b = e)) ∧
    (seq_collect (seq_end (sequence.mk bi ei increment)) (ei - bi).toNat
        (seq_begin (sequence.mk bi ei increment))).isSome = true ∧
    (∀ fuel, fuel < (ei - bi).toNat →
      seq_collect (seq_end (sequence.mk bi ei increment)) fuel
        (seq_begin (sequence.mk bi ei increment)) = none) := by
  have hei : ei = bi + ((ei - bi).toNat : Int) := by omega
  refine ⟨⟨?_, ?_⟩, ?_, ?_⟩
  · rintro ⟨fuel, hsome⟩
    obtain ⟨n, -, hit⟩ := seq_collect_isSome_iff step e fuel b hsome
    exact ⟨n, hit⟩
  · rintro ⟨n, hit⟩
    exact ⟨n, seq_collect_isSome_of_iterate step e n b hit⟩
  · show (seq_collect ⟨ei, increment⟩ (ei - bi).toNat
      ⟨bi, increment⟩).isSome = true
    obtain ⟨d, hd1, hd2⟩ : ∃ d : Nat, ei = bi + (d : Int) ∧
        (ei - bi).toNat = d := ⟨(ei - bi).toNat, by omega, rfl⟩
    rw [hd2, hd1, seq_collect_increment_exact d bi]
    rfl
  · intro fuel hlt
    show seq_collect ⟨ei, increment⟩ fuel ⟨bi, increment⟩ = none
    obtain ⟨d, hd1, hd2⟩ : ∃ d : Nat, ei = bi + (d : Int) ∧
        (ei - bi).toNat = d := ⟨(ei - bi).toNat, by omega, rfl⟩
    rw [hd2] at hlt
    rw [hd1]
    exact seq_collect_increment_short fuel d bi hlt

/-- Witness for C10 at `step = increment`, `b = 0`, `e = 3`,
`bi = 0`, `ei = 3`. -/
theorem sequence_traversal_termination_witness :
    (0 : Int) ≤ 3 ∧
    (((∃ fuel, (seq_collect ⟨(3 : Int), increment⟩ fuel
          ⟨(0 : Int), increment⟩).isSome = true) ↔
        (∃ n, increment^[n] (0 : Int) = 3)) ∧
      (seq_collect (seq_end (sequence.mk (0 : Int) 3 increment))
          ((3 : Int) - 0).toNat
          (seq_begin (sequence.mk (0 : Int) 3 increment))).isSome = true ∧
      (∀ fuel, fuel < ((3 : Int) - 0).toNat →
        seq_collect (seq_end (sequence.mk (0 : Int) 3 increment)) fuel
          (seq_begin (sequence.mk (0 : Int) 3 increment)) = none)) :=
  ⟨by decide, sequence_traversal_termination increment 3 0 0 3 (by decide)⟩

/-! ### Generator-driven sequence (`iterators.hpp`)

`generative_iterator<T>` stores the producer `m_gen` (a stateful
zero-argument `std::function`), the eagerly materialized current value
`m_val`, the iteration counter `m_count`, and a sentinel `m_sentinel`.
A deterministic stateful zero-argument producer is observationally a
function from its call index to the produced value, so `m_gen` is
embedded as `Nat → α` together with an instrumentation counter
`m_calls` recording how many times the producer has been invoked. -/

structure generative_iterator (α : Type) where
  m_gen : Nat → α
  m_calls : Nat
  m_val : α
  m_count : Nat
  m_sentinel : Nat

/-- `generative_iterator::generative_iterator(Func&&)` : stores the
producer and eagerly invokes it once (`m_val {m_gen()}`); counter and
sentinel start at `0`. -/
def gen_iter_ofFunc (f : Nat → α) : generative_iterator α :=
  { m_gen := f, m_calls := 1, m_val := f 0, m_count := 0, m_sentinel := 0 }

/-- `generative_iterator::generative_iterator(const I sentinel)` : end
marker built directly from the target maximum count; the producer is
never invoked (`m_calls = 0`; the default-constructed `std::function` is
embedded as a constant-`default` function that nothing calls). -/
def gen_iter_ofSentinel [Inhabited α] (sentinel : Nat) :
    generative_iterator α :=
  { m_gen := fun _ => default
    m_calls := 0
    m_val := default
    m_count := 0
    m_sentinel := sentinel }

/-- `generative_iterator::operator++` : `m_val = m_gen(); ++m_count;`. -/
def gen_iter_next (it : generative_iterator α) : generative_iterator α :=
  { it with
    m_val := it.m_gen it.m_calls
    m_calls := it.m_calls + 1
    m_count := it.m_count + 1 }

/-- `generative_iterator::operator==` : compares the current number of
iterations against `rhs`'s sentinel value. -/
def gen_iter_eq (a b : generative_iterator α) : Bool :=
  a.m_count == b.m_sentinel

/-- `generative_sequence<T>` : producer plus maximum iteration count. -/
structure generative_sequence (α : Type) where
  m_gen : Nat → α
  m_max : Nat

/-- `generative_sequence::begin` : `generative_iterator(m_gen)`. -/
def gen_begin (s : generative_sequence α) : generative_iterator α :=
  gen_iter_ofFunc s.m_gen

/-- `generative_sequence::end` : `generative_iterator<value_type>(m_max)`. -/
def gen_end [Inhabited α] (s : generative_sequence α) :
    generative_iterator α :=
  gen_iter_ofSentinel s.m_max

/-- Front-to-back consumption against a stop marker, returning the yielded
values and the final live iterator.  While the live marker does not
compare equal to the stop marker (`operator==` : counter versus the
stop's sentinel), dereference then pre-increment. -/
def gen_run : Nat → generative_iterator α → generative_iterator α →
    Option (List α × generative_iterator α)
  | fuel, it, stop =>
    if gen_iter_eq it stop then some ([], it)
    else
      match fuel with
      | 0 => none
      | f + 1 => (gen_run f (gen_iter_next it) stop).map
          (fun p => (it.m_val :: p.1, p.2))

/-- From any live iterator whose counter is `d` short of the stop's
sentinel, fuel `d` finishes the traversal, yielding `d` values and
invoking the producer exactly `d` more times. -/
theorem gen_run_complete (stop : generative_iterator α) :
    ∀ (d : Nat) (it : generative_iterator α),
      it.m_count + d = stop.m_sentinel →
      ∃ l fin, gen_run d it stop = some (l, fin) ∧
        fin.m_calls = it.m_calls + d ∧ l.length = d := by
  intro d
  induction d with
  | zero =>
      intro it hc
      refine ⟨[], it, ?_, by omega, rfl⟩
      rw [gen_run]
      have hc2 : it.m_count = stop.m_sentinel := by omega
      simp [gen_iter_eq, hc2]
  | succ f ih =>
      intro it hc
      have hnextc : (gen_iter_next it).m_count + f = stop.m_sentinel := by
        simp only [gen_iter_next]
        omega
      obtain ⟨l, fin, hrun, hcalls, hlen⟩ := ih (gen_iter_next it) hnextc
      have hcalls2 : fin.m_calls = it.m_calls + (f + 1) := by
        simp only [gen_iter_next] at hcalls
        omega
      refine ⟨it.m_val :: l, fin, ?_, hcalls2, by simp [hlen]⟩
      rw [gen_run]
      have hne : it.m_count ≠ stop.m_sentinel := by omega
      simp [gen_iter_eq, hne, hrun]

/-- C9: a full front-to-back traversal of `generative_sequence(n, f)`
invokes the producer exactly `n + 1` times: once eagerly when `begin()`
constructs the first iterator (even for `n = 0`, before any dereference),
and once per pre-increment, including the final increment that makes the
counter reach the sentinel.  (Fuel `n` means the loop body runs exactly
`n` times, which part C10's analogue shows suffices.) -/
theorem generative_invocation_count (α : Type) [Inhabited α]
    (n : Nat) (f : Nat → α) :
    ∃ l fin,
      gen_run n (gen_begin (generative_sequence.mk f n))
        (gen_end (generative_sequence.mk f n)) = some (l, fin) ∧
      fin.m_calls = n + 1 ∧ l.length = n ∧
      (gen_begin (generative_sequence.mk f n)).m_calls = 1 := by
  obtain ⟨l, fin, hrun, hcalls, hlen⟩ :=
    gen_run_complete (gen_end (generative_sequence.mk f n)) n
      (gen_begin (generative_sequence.mk f n))
      (by simp [gen_begin, gen_iter_ofFunc, gen_end, gen_iter_ofSentinel])
  exact ⟨l, fin, hrun, by
    simpa [gen_begin, gen_iter_ofFunc, Nat.add_comm] using hcalls,
    hlen, rfl⟩

/-- Witness for C9 at `n = 2`, `f = fun k => (k : Int)`. -/
theorem generative_invocation_count_witness :
    ∃ l fin,
      gen_run 2
        (gen_begin (generative_sequence.mk (fun k : Nat => (k : Int)) 2))
        (gen_end (generative_sequence.mk (fun k : Nat => (k : Int)) 2)) =
        some (l, fin) ∧
      fin.m_calls = 2 + 1 ∧ l.length = 2 ∧
      (gen_begin (generative_sequence.mk
        (fun k : Nat => (k : Int)) 2)).m_calls = 1 :=
  generative_invocation_count Int 2 (fun k : Nat => (k : Int))

/-- C6: consuming `generative_sequence(3, counter_fn)` front-to-back,
where `counter_fn` returns `10, 20, 30, ...` on successive calls, yields
exactly `10, 20, 30` and is exhausted after 3 steps regardless of what
the 4th call to `counter_fn` would produce (`f 3` is unconstrained); the
end marker is built from the maximum count without invoking the producer
(`m_calls = 0`), and termination is detected by comparing the live
iterator's counter to the end marker's sentinel. -/
theorem generative_sequence_ten_twenty_thirty (f : Nat → Int)
    (h0 : f 0 = 10) (h1 : f 1 = 20) (h2 : f 2 = 30) :
    (gen_run 3 (gen_begin (generative_sequence.mk f 3))
        (gen_end (generative_sequence.mk f 3))).map Prod.fst =
      some [10, 20, 30] ∧
    (gen_end (generative_sequence.mk f 3)).m_calls = 0 := by
  constructor
  · have hrun : gen_run 3 (gen_begin (generative_sequence.mk f 3))
        (gen_end (generative_sequence.mk f 3)) =
        some ([f 0, f 1, f 2],
          { m_gen := f
            m_calls := 4
            m_val := f 3
            m_count := 3
            m_sentinel := 0 }) := rfl
    rw [hrun, Option.map_some']
    rw [h0, h1, h2]
  · rfl

/-- Witness for C6 with the producer `fun k => 10 * (k + 1)`. -/
theorem generative_sequence_ten_twenty_thirty_witness :
    ((fun k : Nat => 10 * ((k : Int) + 1)) 0 = 10 ∧
      (fun k : Nat => 10 * ((k : Int) + 1)) 1 = 20 ∧
      (fun k : Nat => 10 * ((k : Int) + 1)) 2 = 30) ∧
    ((gen_run 3
        (gen_begin (generative_sequence.mk
          (fun k : Nat => 10 * ((k : Int) + 1)) 3))
        (gen_end (generative_sequence.mk
          (fun k : Nat => 10 * ((k : Int) + 1)) 3))).map Prod.fst =
      some [10, 20, 30] ∧
    (gen_end (generative_sequence.mk
        (fun k : Nat => 10 * ((k : Int) + 1)) 3)).m_calls = 0) :=
  ⟨⟨by decide, by decide, by decide⟩,
    generative_sequence_ten_twenty_thirty
      (fun k : Nat => 10 * ((k : Int) + 1))
      (by decide) (by decide) (by decide)⟩

/-! ### Universal stringifier `to_string` (`etc.hpp`)

The renderable values are the closed set of capability branches the
source dispatches on: a printable scalar (`int` via `operator<<`, `bool`
under `std::boolalpha`), a pair, a tuple (fixed heterogeneous sequence),
or a homogeneous iterable.  The `std::stringstream` buffer is embedded
as a `List Char`; `out.seekp(-2, std::ios_base::end)` followed by
writing a two-character text overwrites the last two characters of the
buffer, i.e. `take (length - 2)` then append. -/

mutual

inductive Value : Type where
  | int : Int → Value
  | bool : Bool → Value
  | pair : Value → Value → Value
  | tuple : ValueList → Value
  | iterable : ValueList → Value

inductive ValueList : Type where
  | nil : ValueList
  | cons : Value → ValueList → ValueList

end

/-- `seekp(-2, end)` then writing two characters: drop the last two
characters of the buffer (the trailing `", "`); the two written
characters are appended by the caller. -/
def seekp_overwrite2 (buf : List Char) : List Char :=
  buf.take (buf.length - 2)

mutual

/-- `supl::to_string` : dispatch on the first matching capability:
printable scalar via `operator<<` (with `std::boolalpha`), then tuple,
then pair, then iterable (`"[ ]"` when `value.empty()`). -/
def to_string : Value → List Char
  | .int i => (toString i).data
  | .bool b => (toString b).data
  | .tuple xs =>
      seekp_overwrite2 ("( ".data ++ to_string_each xs) ++ " )".data
  | .pair a b =>
      "( ".data ++ to_string a ++ ", ".data ++ to_string b ++ " )".data
  | .iterable .nil => "[ ]".data
  | .iterable (.cons x xs) =>
      seekp_overwrite2
        ("[ ".data ++ to_string_each (.cons x xs)) ++ " ]".data

/-- The element loop (`for_each_in_tuple` / `std::for_each`): write each
element's rendering followed by `", "`. -/
def to_string_each : ValueList → List Char
  | .nil => []
  | .cons x rest => to_string x ++ ", ".data ++ to_string_each rest

end

/-- C7: `to_string` applied to a homogeneous iterable of the ints
`3, 5, 6, 9` yields the literal text `[ 3, 5, 6, 9 ]`; applied to an
empty iterable it yields exactly `[ ]`; applied to the pair `(1, true)`
it yields `( 1, true )`, the boolean rendered as a word. -/
theorem to_string_examples :
    to_string (.iterable (.cons (.int 3) (.cons (.int 5)
        (.cons (.int 6) (.cons (.int 9) .nil))))) =
      "[ 3, 5, 6, 9 ]".data ∧
    to_string (.iterable .nil) = "[ ]".data ∧
    to_string (.pair (.int 1) (.bool true)) = "( 1, true )".data := by
  refine ⟨?_, ?_, ?_⟩ <;> decide

/-- The spec's description of tuple rendering, stated in its own words:
the recursively rendered elements separated by `", "`, with no trailing
separator after the last element.  Kept separate from `to_string` (which
is translated from the source) so the two can be compared. -/
def spec_joined_elems : ValueList → List Char
  | .nil => []
  | .cons x .nil => to_string x
  | .cons x (.cons y rest) =>
      to_string x ++ ", ".data ++ spec_joined_elems (.cons y rest)

/-- The element loop writes a trailing separator after the last element;
on a nonempty list it is the spec's separator-joined text plus `", "`. -/
theorem to_string_each_eq_spec :
    ∀ (x : Value) (xs : ValueList),
      to_string_each (.cons x xs) =
        spec_joined_elems (.cons x xs) ++ ", ".data
  | x, .nil => by
      rw [to_string_each, to_string_each, spec_joined_elems]
      simp
  | x, .cons y rest => by
      rw [to_string_each, to_string_each_eq_spec y rest,
        spec_joined_elems]
      simp

/-- C8 as stated is FALSE on the code at arity 0: for the empty tuple the
`seekp(-2, end)` overwrite consumes the opening `"( "` (the buffer holds
only those two characters), so the output is `" )"`, not an opening
`"( "`, no elements, and a closing `" )"`. -/
theorem to_string_empty_tuple_counterexample :
    to_string (.tuple .nil) = " )".data ∧
    to_string (.tuple .nil) ≠
      "( ".data ++ spec_joined_elems .nil ++ " )".data := by
  constructor
  · decide
  · decide

/-- C8 (amended): for every fixed heterogeneous sequence of arity AT
LEAST ONE whose elements are all renderable, `to_string` renders it as
`( e0, e1, ..., en )` — an opening `"( "`, the recursively rendered
elements separated by `", "`, and a closing `" )"` — with no trailing
separator after the last element.  (The empty tuple instead renders as
`" )"`.) -/
theorem to_string_tuple_nonempty (x : Value) (xs : ValueList) :
    to_string (.tuple (.cons x xs)) =
      "( ".data ++ spec_joined_elems (.cons x xs) ++ " )".data := by
  rw [to_string, to_string_each_eq_spec x xs, seekp_overwrite2,
    ← List.append_assoc]
  have hsep : (", ".data).length = 2 := rfl
  have hlen : (("( ".data ++ spec_joined_elems (.cons x xs)) ++
      ", ".data).length - 2 =
      ("( ".data ++ spec_joined_elems (.cons x xs)).length := by
    rw [List.length_append, hsep]
    omega
  rw [hlen, List.take_left]

/-- Witness for C8 (amended) at the 2-element tuple `(1, true)`. -/
theorem to_string_tuple_nonempty_witness :
    to_string (.tuple (.cons (.int 1) (.cons (.bool true) .nil))) =
      "( ".data ++
        spec_joined_elems (.cons (.int 1) (.cons (.bool true) .nil)) ++
        " )".data :=
  to_string_tuple_nonempty (.int 1) (.cons (.bool true) .nil)

end supl
